import Mathlib

/-!
Verification of the faex VS Code extension's core pure logic.

The TypeScript sources are shallowly embedded:
* `src/types.ts` — endpoint records, `getUndeclaredExceptions`, `getUnusedDeclarations`;
* `src/utils/config.ts` — `shouldExcludeFile`, `matchGlobPattern`;
* `src/analyzer/cli.ts` — the `close`-event handler of `runFaexCli`;
* `src/analyzer/analyzer.ts` — `convertEndpoint` and `analyzeDocument`'s handling
  of a null CLI result;
* `src/providers/codeLens.ts` — `findDecoratorEndLine` and `createAddExceptionEdit`;
* `src/providers/diagnostics.ts` — the `analysisInProgress` single-flight guard.

Documents are embedded as lists of lines, each line a `List Char`; JavaScript
strings become `String`/`List Char`, arrays become `List`, `undefined`/`null`
become `Option`, and the JS `Set` of strings is modelled by list membership.
-/

namespace Faex

/-- The single-quote character, written by code point to keep source scanners happy. -/
def squote : Char := Char.ofNat 39

/-- The backslash character. -/
def bslash : Char := Char.ofNat 92

/-! ### Data model (src/types.ts) -/

/-- Embeds `ExceptionLocation` from src/types.ts. -/
structure ExceptionLocation where
  file : String
  line : Nat
  column : Nat
  exceptionClass : String
  inFunction : Option String
deriving Repr, DecidableEq

/-- Embeds `EndpointInfo` from src/types.ts.  The TS optional field
`_undeclaredExceptions?: ExceptionLocation[]` becomes an `Option`; the
truthiness test `if (endpoint._undeclaredExceptions)` in the source is a
presence test (a present empty array is truthy in JS). -/
structure EndpointInfo where
  file : String
  line : Nat
  column : Nat
  functionName : String
  method : String
  path : String
  decoratorLine : Nat
  exceptionsLine : Option Nat
  declaredExceptions : List String
  detectedExceptions : List ExceptionLocation
  undeclaredExceptionsCli : Option (List ExceptionLocation)
deriving Repr, DecidableEq

/-- Embeds `getUndeclaredExceptions` (src/types.ts).  The JS
`new Set(endpoint.declaredExceptions)` with `.has` is modelled by list
membership (`List.contains`), which agrees with `Set.has` on strings. -/
def getUndeclaredExceptions (endpoint : EndpointInfo) : List ExceptionLocation :=
  match endpoint.undeclaredExceptionsCli with
  | some l => l
  | none =>
    endpoint.detectedExceptions.filter
      (fun exc => !(endpoint.declaredExceptions.contains exc.exceptionClass))

/-- Embeds `getUnusedDeclarations` (src/types.ts); the JS `Set` of detected
class names is modelled by list membership. -/
def getUnusedDeclarations (endpoint : EndpointInfo) : List String :=
  endpoint.declaredExceptions.filter
    (fun exc => !((endpoint.detectedExceptions.map (fun e => e.exceptionClass)).contains exc))

/-- Embeds `AnalysisError` from src/types.ts. -/
structure AnalysisError where
  file : String
  line : Option Nat
  message : String
deriving Repr, DecidableEq

/-- Embeds `AnalysisResult` from src/types.ts. -/
structure AnalysisResult where
  endpoints : List EndpointInfo
  errors : List AnalysisError
deriving Repr, DecidableEq

/-! ### CLI JSON output model (src/analyzer/cli.ts) -/

/-- Embeds `FaexException` from src/analyzer/cli.ts (`in_function` is nullable). -/
structure FaexException where
  «class» : String
  file : String
  line : Nat
  in_function : Option String
deriving Repr, DecidableEq

/-- Embeds `FaexEndpoint` from src/analyzer/cli.ts. -/
structure FaexEndpoint where
  file : String
  line : Nat
  function : String
  method : String
  path : String
  declared_exceptions : List String
  undeclared_exceptions : List FaexException
deriving Repr, DecidableEq

/-- Embeds the `summary` object of `FaexJsonOutput` (src/analyzer/cli.ts). -/
structure FaexSummary where
  total_endpoints : Nat
  endpoints_with_issues : Nat
  total_undeclared : Nat
deriving Repr, DecidableEq

/-- Embeds `FaexJsonOutput` from src/analyzer/cli.ts. -/
structure FaexJsonOutput where
  summary : FaexSummary
  endpoints : List FaexEndpoint
  errors : List String
deriving Repr, DecidableEq

/-- Embeds `convertEndpoint` (src/analyzer/analyzer.ts).  The JS expression
`exc.in_function || undefined` maps both `null` and the empty string to
`undefined`, which the `match` below reproduces. -/
def convertEndpoint (faexEndpoint : FaexEndpoint) : EndpointInfo :=
  { file := faexEndpoint.file
    line := faexEndpoint.line
    column := 0
    functionName := faexEndpoint.function
    method := faexEndpoint.method
    path := faexEndpoint.path
    decoratorLine := faexEndpoint.line
    exceptionsLine := none
    declaredExceptions := faexEndpoint.declared_exceptions
    detectedExceptions := []
    undeclaredExceptionsCli := some (faexEndpoint.undeclared_exceptions.map
      (fun exc =>
        { file := exc.file
          line := exc.line
          column := 0
          exceptionClass := exc.«class»
          inFunction := match exc.in_function with
            | none => none
            | some s => if s = "" then none else some s })) }

/-- Embeds the `close`-event handler of `runFaexCli` (src/analyzer/cli.ts,
lines 65-81).  The callback receives the exit code but never reads it; JSON
parsing with its `try/catch` is abstracted as `parseJson : String → Option`.
An empty stdout resolves `null` (after logging stderr), a non-empty stdout
resolves the parse result, with a parse failure resolving `null`. -/
def runFaexCliClose (parseJson : String → Option FaexJsonOutput)
    (_exitCode : Int) (stdout _stderr : String) : Option FaexJsonOutput :=
  if stdout ≠ "" then parseJson stdout else none

/-- Embeds the result handling of `EndpointAnalyzer.analyzeDocument`
(src/analyzer/analyzer.ts): a `null` CLI result yields an empty analysis,
otherwise endpoints are converted and error strings attached to the file. -/
def analyzeDocumentResult (fsPath : String) (cliResult : Option FaexJsonOutput) :
    AnalysisResult :=
  match cliResult with
  | none => { endpoints := [], errors := [] }
  | some result =>
    { endpoints := result.endpoints.map convertEndpoint
      errors := result.errors.map (fun msg => { file := fsPath, line := none, message := msg }) }

/-! ### Configuration and glob matching (src/utils/config.ts) -/

/-- Embeds `FaexConfig` from src/utils/config.ts. -/
structure FaexConfig where
  enable : Bool
  faexPath : String
  depth : Nat
  ignore : List String
  exclude : List String
  validateOnSave : Bool
  validateOnType : Bool
  showCodeLens : Bool
deriving Repr, DecidableEq

/-- The defaults supplied by `getConfig` (src/utils/config.ts), used when no
workspace setting overrides them. -/
def defaultConfig : FaexConfig :=
  { enable := true
    faexPath := "faex"
    depth := 3
    ignore := []
    exclude := ["**/tests/**", "**/test_*.py"]
    validateOnSave := true
    validateOnType := false
    showCodeLens := true }

/-- A token of the regex text that `matchGlobPattern` builds: `\.` and other
literal characters compile to `lit`, `*` to `[^/]*` (`star`), and `**` to
`.*` (`globstar`). -/
inductive GlobTok where
  | lit (c : Char)
  | star
  | globstar
deriving Repr, DecidableEq

/-- Embeds the regex construction of `matchGlobPattern` (src/utils/config.ts):
`.` is escaped to a literal, `**` becomes `.*`, a remaining `*` becomes
`[^/]*`, and every other character is taken literally (the patterns the
extension uses contain no further regex metacharacters). -/
def compileGlob : List Char → List GlobTok
  | [] => []
  | '*' :: '*' :: rest => GlobTok.globstar :: compileGlob rest
  | '*' :: rest => GlobTok.star :: compileGlob rest
  | c :: rest => GlobTok.lit c :: compileGlob rest

/-- Anchored matching semantics (`^...$`, via `RegExp.test`) of the compiled
tokens: `star` matches any run of non-`/` characters, `globstar` any run of
characters. -/
def globMatch : List GlobTok → List Char → Bool
  | [], [] => true
  | [], _ :: _ => false
  | GlobTok.lit _ :: _, [] => false
  | GlobTok.lit c :: ts, x :: xs => c = x && globMatch ts xs
  | GlobTok.star :: ts, s =>
    globMatch ts s ||
      (match s with
       | [] => false
       | x :: xs => !(x = '/') && globMatch (GlobTok.star :: ts) xs)
  | GlobTok.globstar :: ts, s =>
    globMatch ts s ||
      (match s with
       | [] => false
       | _ :: xs => globMatch (GlobTok.globstar :: ts) xs)
termination_by ts s => (s.length, ts.length)

/-- Embeds `matchGlobPattern` (src/utils/config.ts). -/
def matchGlobPattern (path pattern : String) : Bool :=
  globMatch (compileGlob pattern.toList) path.toList

/-- Embeds `shouldExcludeFile` (src/utils/config.ts).  The
`vscode.workspace.asRelativePath` conversion is external to the repository;
the function here receives the workspace-relative path it produces, and the
early-returning `for` loop over `config.exclude` is `List.any`. -/
def shouldExcludeFile (relativePath : String) (config : FaexConfig) : Bool :=
  config.exclude.any (fun pattern => matchGlobPattern relativePath pattern)

/-! ### Decorator end-line scan (src/providers/codeLens.ts, `findDecoratorEndLine`) -/

/-- The scanner state of `findDecoratorEndLine`: the TS locals `parenCount`
(a number, possibly negative) and the pair `inString`/`stringChar`, fused
into an `Option Char` holding the opening quote while inside a string. -/
structure ScanSt where
  parenCount : Int
  inString : Option Char
deriving Repr, DecidableEq

/-- One iteration of the inner character loop of `findDecoratorEndLine`:
given the previous character of the same line (`none` at column 0, where the
TS code compares against the empty string), produce the next state and
whether the function returns at this character (a closing parenthesis that
brings the count to zero). -/
def charStep (st : ScanSt) (prev : Option Char) (c : Char) : ScanSt × Bool :=
  if (c = '"' ∨ c = squote) ∧ prev ≠ some bslash then
    match st.inString with
    | none => ({ st with inString := some c }, false)
    | some q => if c = q then ({ st with inString := none }, false) else (st, false)
  else if st.inString.isSome then (st, false)
  else if c = '(' then ({ st with parenCount := st.parenCount + 1 }, false)
  else if c = ')' then
    ({ st with parenCount := st.parenCount - 1 }, decide (st.parenCount - 1 = 0))
  else (st, false)

/-- The inner loop of `findDecoratorEndLine` over one line's characters,
threading `prev` and stopping as soon as `charStep` signals a return. -/
def lineScan : ScanSt → Option Char → List Char → ScanSt × Bool
  | st, _, [] => (st, false)
  | st, prev, c :: cs =>
    let r := charStep st prev c
    if r.2 then (r.1, true) else lineScan r.1 (some c) cs

/-- The outer loop of `findDecoratorEndLine` over the document's lines from
`idx` on, returning the line index on which the scan returns, if any. -/
def docScan : ScanSt → Nat → List (List Char) → Option Nat
  | _, _, [] => none
  | st, idx, l :: ls =>
    let r := lineScan st none l
    if r.2 then some idx else docScan r.1 (idx + 1) ls

/-- Embeds `findDecoratorEndLine` (src/providers/codeLens.ts): scan the
document from `startLine`; fall back to `startLine` when the loop runs off
the end of the document. -/
def findDecoratorEndLine (doc : List (List Char)) (startLine : Nat) : Nat :=
  match docScan { parenCount := 0, inString := none } startLine (doc.drop startLine) with
  | some n => n
  | none => startLine

/-! ### Specification-side rendering of the scan

The spec describes the scan as: skip every character inside a single- or
double-quoted string literal (a backslash-escaped quote does not terminate
the string), track parenthesis depth over the remaining characters, and
return the first line on which the depth returns to zero after having been
opened; fall back to the start line when the document ends unbalanced.  The
definitions below state that reading directly: first the string-skipping pass
that emits the parenthesis characters outside string literals, then a depth
pass over the emitted characters that flags a line when a `)` lands on depth
zero, then the first flagged line. -/

/-- String-literal tracking alone: the next string state after one character. -/
def strStep (str : Option Char) (prev : Option Char) (c : Char) : Option Char :=
  if (c = '"' ∨ c = squote) ∧ prev ≠ some bslash then
    match str with
    | none => some c
    | some q => if c = q then none else some q
  else str

/-- The parenthesis this character contributes to depth tracking, if any:
characters inside string literals and quote characters contribute nothing. -/
def emitChar (str : Option Char) (prev : Option Char) (c : Char) : Option Char :=
  if (c = '"' ∨ c = squote) ∧ prev ≠ some bslash then none
  else if str.isSome then none
  else if c = '(' ∨ c = ')' then some c
  else none

/-- The parenthesis characters of one line that lie outside string literals,
together with the string state at the end of the line. -/
def lineEmit : Option Char → Option Char → List Char → Option Char × List Char
  | str, _, [] => (str, [])
  | str, prev, c :: cs =>
    let r := lineEmit (strStep str prev c) (some c) cs
    (r.1, (emitChar str prev c).toList ++ r.2)

/-- Per-line lists of parenthesis characters outside string literals, the
string state threading across lines. -/
def emitDoc : Option Char → List (List Char) → List (List Char)
  | _, [] => []
  | str, l :: ls =>
    let r := lineEmit str none l
    r.2 :: emitDoc r.1 ls

/-- Depth tracking over one line's emitted parentheses: the depth after the
line, and whether some `)` of the line brought the depth to exactly zero
(which requires the depth to have been opened — positive — just before). -/
def lineDepth : Int → List Char → Int × Bool
  | d, [] => (d, false)
  | d, c :: cs =>
    if c = '(' then lineDepth (d + 1) cs
    else if c = ')' then
      ((lineDepth (d - 1) cs).1, decide (d - 1 = 0) || (lineDepth (d - 1) cs).2)
    else lineDepth d cs

/-- The per-line flags "depth returned to zero on this line", threading the
depth across lines. -/
def depthFlags : Int → List (List Char) → List Bool
  | _, [] => []
  | d, ps :: rest =>
    let r := lineDepth d ps
    r.2 :: depthFlags r.1 rest

/-- Index of the first `true` in a list of flags. -/
def firstTrueIdx : List Bool → Option Nat
  | [] => none
  | b :: bs => if b then some 0 else (firstTrueIdx bs).map (fun i => i + 1)

/-- The scan as the specification words it: the first line (from `startLine`)
whose string-skipped parenthesis stream returns the depth to zero, with
`startLine` as the fallback when no line balances. -/
def findDecoratorEndLineSpec (doc : List (List Char)) (startLine : Nat) : Nat :=
  match firstTrueIdx (depthFlags 0 (emitDoc none (doc.drop startLine))) with
  | some i => startLine + i
  | none => startLine

/-! ### Edit synthesis (src/providers/codeLens.ts, `createAddExceptionEdit`) -/

/-- A `vscode.WorkspaceEdit` entry on a single document: a replacement of a
column range on one line, or an insertion at one position. -/
inductive TextEdit where
  | replace (line startCol endCol : Nat) (newText : List Char)
  | insert (line col : Nat) (text : List Char)
deriving Repr, DecidableEq

/-- The ECMAScript `\s` character class (also the character set trimmed by
`String.prototype.trim`). -/
def jsSpaceChars : List Char :=
  [' ', '\t', '\n', '\r', Char.ofNat 0x0b, Char.ofNat 0x0c, Char.ofNat 0xa0,
   Char.ofNat 0x1680, Char.ofNat 0x2000, Char.ofNat 0x2001, Char.ofNat 0x2002,
   Char.ofNat 0x2003, Char.ofNat 0x2004, Char.ofNat 0x2005, Char.ofNat 0x2006,
   Char.ofNat 0x2007, Char.ofNat 0x2008, Char.ofNat 0x2009, Char.ofNat 0x200a,
   Char.ofNat 0x2028, Char.ofNat 0x2029, Char.ofNat 0x202f, Char.ofNat 0x205f,
   Char.ofNat 0x3000, Char.ofNat 0xfeff]

/-- Whether a character is ECMAScript whitespace. -/
def isJsSpace (c : Char) : Bool := jsSpaceChars.contains c

/-- JavaScript `String.prototype.trim`. -/
def jsTrim (s : List Char) : List Char :=
  ((s.dropWhile isJsSpace).reverse.dropWhile isJsSpace).reverse

/-- JavaScript `String.prototype.endsWith(",")` on a character list. -/
def endsWithComma (s : List Char) : Bool :=
  match s.getLast? with
  | some c => c = ','
  | none => false

/-- JavaScript `hay.indexOf(pat)` (first occurrence), as an `Option`. -/
def strIndexOf : List Char → List Char → Option Nat
  | hay, pat =>
    if pat.isPrefixOf hay then some 0
    else
      match hay with
      | [] => none
      | _ :: t => (strIndexOf t pat).map (fun i => i + 1)

/-- JavaScript `s.lastIndexOf(")")`: index of the last `)`, as an `Option`
(the TS code's `-1` becomes `none`). -/
def lastParenIndex : List Char → Option Nat
  | [] => none
  | x :: t =>
    match lastParenIndex t with
    | some i => some (i + 1)
    | none => if x = ')' then some 0 else none

/-- Match of the regex `exceptions\s*=\s*\[[^\]]*\]` anchored at the start of
`s`, returning the match length.  The regex is deterministic: each `\s*` run
is maximal (a space can never satisfy the following `=`/`[`), and `[^\]]*`
runs to the first `]`. -/
def matchExceptionsAt (s : List Char) : Option Nat :=
  if ("exceptions".toList).isPrefixOf s then
    let r1 := (s.drop 10).dropWhile isJsSpace
    let ws1 := (s.drop 10).length - r1.length
    match r1 with
    | '=' :: r2 =>
      let r3 := r2.dropWhile isJsSpace
      let ws2 := r2.length - r3.length
      match r3 with
      | '[' :: r4 =>
        let content := r4.takeWhile (fun c => !(c = ']'))
        match r4.drop content.length with
        | ']' :: _ => some (10 + ws1 + 1 + ws2 + 1 + content.length + 1)
        | _ => none
      | _ => none
    | _ => none
  else none

/-- JavaScript `lineText.match(/exceptions\s*=\s*\[([^\]]*)\]/)`: the leftmost
match, as `(index, length)`. -/
def execExceptionsPattern : List Char → Option (Nat × Nat)
  | [] => (matchExceptionsAt []).map (fun len => (0, len))
  | c :: t =>
    match matchExceptionsAt (c :: t) with
    | some len => some (0, len)
    | none => (execExceptionsPattern t).map (fun r => (r.1 + 1, r.2))

/-- The regenerated declaration list of `createAddExceptionEdit`
(src/providers/codeLens.ts lines 271-274): declared names first, then the
requested names not already declared (JS `Array.includes` is `List.contains`). -/
def allExceptions (declared newExceptions : List String) : List String :=
  declared ++ newExceptions.filter (fun e => !(declared.contains e))

/-- The rendered list text `` `exceptions=[${allExceptions.join(", ")}]` ``. -/
def renderExceptions (l : List String) : List Char :=
  "exceptions=[".toList ++ (String.intercalate ", " l).toList ++ "]".toList

/-- Embeds `createAddExceptionEdit` (src/providers/codeLens.ts).  The document
is its list of lines; `document.lineAt` is `List.getD` (the endpoint's line
numbers are in range in every reachable call).  The returned list holds the
edits added to the `WorkspaceEdit` — one replacement, one insertion, or none. -/
def createAddExceptionEdit (doc : List (List Char)) (endpoint : EndpointInfo)
    (newExceptions : List String) : List TextEdit :=
  let decoratorLine := endpoint.decoratorLine - 1
  let all := allExceptions endpoint.declaredExceptions newExceptions
  match endpoint.exceptionsLine with
  | some el =>
    let excLine := el - 1
    let lineText := (doc.getD excLine [])
    match execExceptionsPattern lineText with
    | some m =>
      let startCol := (strIndexOf lineText ("exceptions".toList)).getD 0
      let endCol := startCol + m.2
      [TextEdit.replace excLine startCol endCol (renderExceptions all)]
    | none => []
  | none =>
    let decoratorEndLine := findDecoratorEndLine doc decoratorLine
    let endLineText := doc.getD decoratorEndLine []
    match lastParenIndex endLineText with
    | some closingParenIndex =>
      let beforeParen := jsTrim (endLineText.take closingParenIndex)
      let needsComma := !beforeParen.isEmpty && !endsWithComma beforeParen
      let insertText :=
        (if needsComma then [','] else []) ++ '\n' :: "    ".toList ++ renderExceptions all
      [TextEdit.insert decoratorEndLine closingParenIndex insertText]
    | none => []

/-! ### Single-flight analysis guard (src/providers/diagnostics.ts) -/

/-- The guarded entry of `DiagnosticsManager.analyzeDocument` (lines 37-42):
if the path is already in the in-progress set the request is dropped (state
unchanged, analyzer not invoked, nothing queued); otherwise the path is added
and the analysis starts.  The JS `Set` of paths is a duplicate-free list. -/
def analysisStart (inProgress : List String) (path : String) : List String × Bool :=
  if inProgress.contains path then (inProgress, false)
  else (inProgress ++ [path], true)

/-- The `finally` block of `DiagnosticsManager.analyzeDocument` (line 65):
the path is deleted from the in-progress set whether or not the awaited
analysis threw. -/
def analysisFinish (inProgress : List String) (path : String) (_threw : Bool) :
    List String :=
  inProgress.erase path

/-! ### Concrete sample values used by witnesses and counterexamples -/

/-- A detected raise of class `A`. -/
def locA : ExceptionLocation :=
  { file := "r.py", line := 5, column := 0, exceptionClass := "A", inFunction := none }

/-- A detected raise of class `B`. -/
def locB : ExceptionLocation :=
  { file := "r.py", line := 7, column := 0, exceptionClass := "B", inFunction := some "g" }

/-- An endpoint carrying a tool-supplied undeclared list. -/
def epWithCli : EndpointInfo :=
  { file := "r.py", line := 1, column := 0, functionName := "f", method := "get",
    path := "/x", decoratorLine := 1, exceptionsLine := none,
    declaredExceptions := ["B"], detectedExceptions := [locB],
    undeclaredExceptionsCli := some [locA] }

/-- An endpoint without a tool-supplied undeclared list. -/
def epNoCli : EndpointInfo :=
  { file := "r.py", line := 1, column := 0, functionName := "f", method := "get",
    path := "/x", decoratorLine := 1, exceptionsLine := none,
    declaredExceptions := ["B"], detectedExceptions := [locA, locB],
    undeclaredExceptionsCli := none }

/-- An endpoint whose decorator has no `exceptions` parameter yet. -/
def epNoExcLine : EndpointInfo :=
  { file := "r.py", line := 1, column := 0, functionName := "f", method := "get",
    path := "/x", decoratorLine := 1, exceptionsLine := none,
    declaredExceptions := [], detectedExceptions := [],
    undeclaredExceptionsCli := none }

/-- The line `@router.get("/exceptions", exceptions=[A])`: the word
`exceptions` occurs at column 14 inside the path string, before the
`exceptions=[A]` parameter the regex matches at column 27. -/
def bugLine : List Char := "@router.get(\"/exceptions\", exceptions=[A])".toList

/-- An endpoint whose `exceptionsLine` points at `bugLine`. -/
def bugEndpoint : EndpointInfo :=
  { file := "r.py", line := 2, column := 0, functionName := "f", method := "get",
    path := "/exceptions", decoratorLine := 1, exceptionsLine := some 1,
    declaredExceptions := ["A"], detectedExceptions := [],
    undeclaredExceptionsCli := none }

/-- A one-line document holding `@router.get("/x")`. -/
def singleLineDoc : List (List Char) := ["@router.get(\"/x\")".toList]

/-- A sample parsed CLI output. -/
def sampleOutput : FaexJsonOutput :=
  { summary := { total_endpoints := 1, endpoints_with_issues := 0, total_undeclared := 0 }
    endpoints := []
    errors := [] }

/-! ## Theorems -/

/-- Bridging the JS membership test to propositional membership. -/
theorem contains_eq_decide_mem (l : List String) (a : String) :
    l.contains a = decide (a ∈ l) :=
  List.elem_eq_mem a l

/-- C1: `getUndeclaredExceptions` returns the tool-supplied undeclared list
verbatim whenever it is present, and otherwise exactly the detected
exceptions whose class names are not among the declared names, in detected
order. -/
theorem getUndeclaredExceptions_spec (endpoint : EndpointInfo) :
    (∀ l, endpoint.undeclaredExceptionsCli = some l →
      getUndeclaredExceptions endpoint = l) ∧
    (endpoint.undeclaredExceptionsCli = none →
      getUndeclaredExceptions endpoint =
        endpoint.detectedExceptions.filter
          (fun exc => decide (exc.exceptionClass ∉ endpoint.declaredExceptions))) := by
  constructor
  · intro l h
    simp [getUndeclaredExceptions, h]
  · intro h
    simp only [getUndeclaredExceptions, h]
    apply List.filter_congr
    intro a _
    rw [contains_eq_decide_mem]
    by_cases hm : a.exceptionClass ∈ endpoint.declaredExceptions <;> simp [hm]

/-- Witness for C1 at two concrete endpoints, one with and one without the
tool-supplied list. -/
theorem getUndeclaredExceptions_spec_witness :
    getUndeclaredExceptions epWithCli = [locA] ∧
    getUndeclaredExceptions epNoCli = [locA] := by
  constructor
  · exact (getUndeclaredExceptions_spec epWithCli).1 [locA] rfl
  · rw [(getUndeclaredExceptions_spec epNoCli).2 rfl]
    decide

/-- C6: `getUnusedDeclarations` returns exactly the declared names whose
class names do not occur among the detected exceptions, preserving declared
order. -/
theorem getUnusedDeclarations_spec (endpoint : EndpointInfo) :
    getUnusedDeclarations endpoint =
      endpoint.declaredExceptions.filter
        (fun c => decide
          (c ∉ endpoint.detectedExceptions.map ExceptionLocation.exceptionClass)) := by
  unfold getUnusedDeclarations
  apply List.filter_congr
  intro a _
  rw [contains_eq_decide_mem]
  by_cases hm : a ∈ endpoint.detectedExceptions.map ExceptionLocation.exceptionClass <;>
    simp [hm]

/-- C10: every endpoint produced by `convertEndpoint` has an empty
`detectedExceptions` list and `decoratorLine` equal to the endpoint's line,
so `getUnusedDeclarations` returns its whole declared list. -/
theorem convertEndpoint_spec (faexEndpoint : FaexEndpoint) :
    (convertEndpoint faexEndpoint).detectedExceptions = [] ∧
    (convertEndpoint faexEndpoint).decoratorLine = faexEndpoint.line ∧
    getUnusedDeclarations (convertEndpoint faexEndpoint) =
      faexEndpoint.declared_exceptions := by
  refine ⟨rfl, rfl, ?_⟩
  simp [getUnusedDeclarations, convertEndpoint, List.contains]

/-- C7: the `close` handler of `runFaexCli` ignores the exit code; non-empty
stdout is parsed (`null` on parse failure is the `parseJson` abstraction),
empty stdout yields `null`, and `analyzeDocument` maps a `null` CLI result to
an empty analysis. -/
theorem runFaexCli_close_spec :
    (∀ (parseJson : String → Option FaexJsonOutput) (code code' : Int)
        (stdout stderr stderr' : String),
      runFaexCliClose parseJson code stdout stderr =
        runFaexCliClose parseJson code' stdout stderr') ∧
    (∀ parseJson (code : Int) (stdout stderr : String), stdout ≠ "" →
      runFaexCliClose parseJson code stdout stderr = parseJson stdout) ∧
    (∀ parseJson (code : Int) (stderr : String),
      runFaexCliClose parseJson code "" stderr = none) ∧
    (∀ fsPath, analyzeDocumentResult fsPath none = { endpoints := [], errors := [] }) := by
  refine ⟨fun _ _ _ _ _ _ => rfl, ?_, fun _ _ _ => rfl, fun _ => rfl⟩
  intro parseJson code stdout stderr h
  simp [runFaexCliClose, h]

/-- Witness for C7 at a concrete parse function and outputs. -/
theorem runFaexCli_close_witness :
    runFaexCliClose (fun s => if s = "{}" then some sampleOutput else none) 1 "{}" "warn" =
      some sampleOutput ∧
    runFaexCliClose (fun _ => some sampleOutput) 0 "" "err" = none ∧
    analyzeDocumentResult "a.py" none = { endpoints := [], errors := [] } := by
  refine ⟨?_, runFaexCli_close_spec.2.2.1 _ 0 "err", runFaexCli_close_spec.2.2.2 "a.py"⟩
  rw [runFaexCli_close_spec.2.1 _ 1 "{}" "warn" (by decide)]
  rfl

/-- C8: the per-path in-progress guard of `DiagnosticsManager.analyzeDocument`
drops (without queueing) a request for a path already in flight, registers
the path before the analysis starts, removes it unconditionally afterwards
whether or not the analysis threw, and keeps the in-progress set
duplicate-free, so a path is never in flight twice. -/
theorem analysisInProgress_guard_spec :
    (∀ (s : List String) (p : String), p ∈ s → analysisStart s p = (s, false)) ∧
    (∀ (s : List String) (p : String), p ∉ s →
      (analysisStart s p).2 = true ∧ (analysisStart s p).1 = s ++ [p]) ∧
    (∀ (s : List String) (p : String) (threw : Bool), p ∉ s →
      analysisFinish (s ++ [p]) p threw = s) ∧
    (∀ (s : List String) (p : String), s.Nodup → ((analysisStart s p).1).Nodup) ∧
    (∀ (s : List String) (p : String) (threw : Bool), s.Nodup →
      (analysisFinish s p threw).Nodup) := by
  refine ⟨?_, ?_, ?_, ?_, ?_⟩
  · intro s p h
    simp [analysisStart, contains_eq_decide_mem, h]
  · intro s p h
    simp [analysisStart, contains_eq_decide_mem, h]
  · intro s p threw h
    simp only [analysisFinish]
    rw [List.erase_append_right _ h]
    simp
  · intro s p h
    by_cases hm : p ∈ s
    · simpa [analysisStart, contains_eq_decide_mem, hm] using h
    · simp [analysisStart, contains_eq_decide_mem, hm, List.nodup_append, h]
  · intro s p threw h
    exact h.erase p

/-- Witness for C8 at concrete paths. -/
theorem analysisInProgress_guard_witness :
    analysisStart ["a.py"] "a.py" = (["a.py"], false) ∧
    analysisStart ["a.py"] "b.py" = (["a.py", "b.py"], true) ∧
    analysisFinish ["a.py", "b.py"] "b.py" true = ["a.py"] ∧
    (analysisFinish ["a.py"] "a.py" false).Nodup := by
  have h1 := analysisInProgress_guard_spec.1 ["a.py"] "a.py" (by decide)
  have h2 := analysisInProgress_guard_spec.2.1 ["a.py"] "b.py" (by decide)
  have h3 := analysisInProgress_guard_spec.2.2.1 ["a.py"] "b.py" true (by decide)
  have h4 := analysisInProgress_guard_spec.2.2.2.2 ["a.py"] "a.py" false (by decide)
  exact ⟨h1, by rw [Prod.ext_iff]; exact ⟨h2.2, h2.1⟩, h3, h4⟩

/-- C5 counterexample: requesting the same new name twice leaves a duplicate
in the regenerated list, so the list is not duplicate-free for every input. -/
theorem allExceptions_dup_counterexample :
    allExceptions [] ["B", "B"] = ["B", "B"] ∧
    ¬ (allExceptions [] ["B", "B"]).Nodup := by
  constructor
  · rfl
  · intro h
    exact absurd rfl ((List.nodup_cons.mp h).1 ∘ List.mem_singleton.mpr)

/-- C5 (amended): the regenerated list is the declared names in order
followed by the requested names not already declared, in order; it is
duplicate-free whenever both inputs are; adding only already-declared names
leaves the list unchanged; and an empty declared list with the single added
name `NotFoundException` renders as `exceptions=[NotFoundException]`. -/
theorem allExceptions_spec :
    (∀ declared newExceptions : List String,
      allExceptions declared newExceptions =
        declared ++ newExceptions.filter (fun e => decide (e ∉ declared))) ∧
    (∀ declared newExceptions : List String, (∀ e ∈ newExceptions, e ∈ declared) →
      allExceptions declared newExceptions = declared) ∧
    (∀ declared newExceptions : List String, declared.Nodup → newExceptions.Nodup →
      (allExceptions declared newExceptions).Nodup) ∧
    renderExceptions (allExceptions [] ["NotFoundException"]) =
      "exceptions=[NotFoundException]".toList := by
  have hfilter : ∀ declared newExceptions : List String,
      newExceptions.filter (fun e => !(declared.contains e)) =
        newExceptions.filter (fun e => decide (e ∉ declared)) := by
    intro declared newExceptions
    apply List.filter_congr
    intro a _
    rw [contains_eq_decide_mem]
    by_cases hm : a ∈ declared <;> simp [hm]
  refine ⟨?_, ?_, ?_, rfl⟩
  · intro declared newExceptions
    unfold allExceptions
    rw [hfilter]
  · intro declared newExceptions h
    unfold allExceptions
    have hnil : newExceptions.filter (fun e => !(declared.contains e)) = [] := by
      rw [hfilter]
      simp only [List.filter_eq_nil_iff, decide_eq_true_eq]
      intro a ha hna
      exact hna (h a ha)
    rw [hnil, List.append_nil]
  · intro declared newExceptions hd hn
    unfold allExceptions
    rw [hfilter]
    refine hd.append (hn.filter _) ?_
    intro a ha hf
    have := List.of_mem_filter hf
    simp only [decide_eq_true_eq] at this
    exact this ha

/-- Witness for C5's amended hypotheses at concrete lists. -/
theorem allExceptions_spec_witness :
    allExceptions ["A"] ["A"] = ["A"] ∧ (allExceptions ["A"] ["B"]).Nodup := by
  refine ⟨allExceptions_spec.2.1 ["A"] ["A"] ?_, allExceptions_spec.2.2.1 ["A"] ["B"] ?_ ?_⟩
  · intro e he
    simpa using he
  · decide
  · decide

/-- C3 (bug evidence): on the line `@router.get("/exceptions", exceptions=[A])`
the regex `exceptions\s*=\s*\[[^\]]*\]` matches at column 27 with length 14,
but `createAddExceptionEdit` derives the replacement start from
`lineText.indexOf("exceptions")`, which is column 14 inside the path string
`"/exceptions"`; the produced edit therefore replaces columns 14-28 — the
text `exceptions", ex` — instead of the matched span at columns 27-41. -/
theorem createAddExceptionEdit_indexOf_bug :
    execExceptionsPattern bugLine = some (27, 14) ∧
    strIndexOf bugLine ("exceptions".toList) = some 14 ∧
    createAddExceptionEdit [bugLine] bugEndpoint ["B"] =
      [TextEdit.replace 0 14 28 ("exceptions=[A, B]".toList)] := by
  refine ⟨by decide, by decide, by decide⟩

/-- C4: when the endpoint has no `exceptionsLine`, the synthesizer emits
exactly one insertion, placed immediately before the last closing parenthesis
of the line found by the parenthesis scan; a comma is prepended iff the text
before that parenthesis, trimmed, is non-empty and does not already end with
a comma, and the inserted text continues with a newline, four spaces of
indentation, and `exceptions=[...]` over the regenerated list. -/
theorem createAddExceptionEdit_insertion_spec (doc : List (List Char))
    (endpoint : EndpointInfo) (newExceptions : List String)
    (endLine k : Nat) (lineText before : List Char)
    (hNoLine : endpoint.exceptionsLine = none)
    (hEnd : findDecoratorEndLine doc (endpoint.decoratorLine - 1) = endLine)
    (hText : doc.getD endLine [] = lineText)
    (hParen : lastParenIndex lineText = some k)
    (hBefore : jsTrim (lineText.take k) = before) :
    createAddExceptionEdit doc endpoint newExceptions =
      [TextEdit.insert endLine k
        ((if before ≠ [] ∧ endsWithComma before = false then [','] else []) ++
          '\n' :: "    ".toList ++
          renderExceptions (allExceptions endpoint.declaredExceptions newExceptions))] := by
  simp only [createAddExceptionEdit, hNoLine, hEnd, hText, hParen]
  rw [hBefore]
  by_cases hP : before = []
  · simp [hP]
  · by_cases hC : endsWithComma before = true
    · simp [hP, hC]
    · simp [hP, hC]

/-- Witness for C4: inserting into the one-line decorator
`@router.get("/x")` places `,\n    exceptions=[A]` before the closing
parenthesis at column 16. -/
theorem createAddExceptionEdit_insertion_witness :
    createAddExceptionEdit singleLineDoc epNoExcLine ["A"] =
      [TextEdit.insert 0 16 (",\n    exceptions=[A]".toList)] := by
  have h := createAddExceptionEdit_insertion_spec singleLineDoc epNoExcLine ["A"]
    0 16 ("@router.get(\"/x\")".toList) ("@router.get(\"/x\"".toList)
    rfl (by decide) (by decide) (by decide) (by decide)
  rw [h]
  decide

/-- The `.*` token matches every string. -/
theorem globMatch_globstar_any (s : List Char) :
    globMatch [GlobTok.globstar] s = true := by
  induction s with
  | nil => simp [globMatch]
  | cons x xs ih => simp [globMatch, ih]

/-- A leading `.*` token absorbs any prefix. -/
theorem globMatch_globstar_skip (ts : List GlobTok) (s : List Char)
    (h : globMatch ts s = true) :
    ∀ pre : List Char, globMatch (GlobTok.globstar :: ts) (pre ++ s) = true := by
  intro pre
  induction pre with
  | nil =>
    cases s with
    | nil => simp [globMatch, h]
    | cons a as => simp [globMatch, h]
  | cons x xs ih => simp [globMatch, ih]

/-- Literal tokens consume exactly their characters. -/
theorem globMatch_lit_segment (cs : List Char) (ts : List GlobTok) (s : List Char)
    (h : globMatch ts s = true) :
    globMatch (cs.map GlobTok.lit ++ ts) (cs ++ s) = true := by
  induction cs with
  | nil => simpa using h
  | cons c cs ih => simp [globMatch, ih]

/-- C9: a workspace-relative path matching the glob `**/tests/**` — that is,
containing `/tests/`, since `**` matches any characters including `/` — is
excluded by `shouldExcludeFile` whenever that pattern is among the configured
exclusions, regardless of the other settings. -/
theorem shouldExcludeFile_tests_glob (relativePath : String) (config : FaexConfig)
    (hmem : "**/tests/**" ∈ config.exclude)
    (pre post : List Char)
    (hsplit : relativePath.toList = pre ++ ("/tests/".toList ++ post)) :
    shouldExcludeFile relativePath config = true := by
  have hcompile : compileGlob ("**/tests/**".toList) =
      GlobTok.globstar :: (("/tests/".toList).map GlobTok.lit ++ [GlobTok.globstar]) := rfl
  have hmatch : matchGlobPattern relativePath "**/tests/**" = true := by
    unfold matchGlobPattern
    rw [hcompile, hsplit]
    exact globMatch_globstar_skip _ _
      (globMatch_lit_segment ("/tests/".toList) [GlobTok.globstar] post
        (globMatch_globstar_any post)) pre
  unfold shouldExcludeFile
  rw [List.any_eq_true]
  exact ⟨"**/tests/**", hmem, hmatch⟩

/-- Witness for C9: `a/tests/b.py` is excluded under the default exclusion
patterns. -/
theorem shouldExcludeFile_tests_glob_witness :
    shouldExcludeFile "a/tests/b.py" defaultConfig = true :=
  shouldExcludeFile_tests_glob "a/tests/b.py" defaultConfig (by decide)
    ("a".toList) ("b.py".toList) (by decide)

/-- One scanner step decomposes into string tracking, the emitted
parenthesis, and depth tracking over it. -/
theorem charStep_eq (d : Int) (str prev : Option Char) (c : Char) :
    charStep ⟨d, str⟩ prev c =
      (⟨(lineDepth d (emitChar str prev c).toList).1, strStep str prev c⟩,
        (lineDepth d (emitChar str prev c).toList).2) := by
  unfold charStep strStep emitChar
  by_cases hq : (c = '"' ∨ c = squote) ∧ prev ≠ some bslash
  · obtain ⟨hq1, hq2⟩ := hq
    cases str with
    | none => simp [hq1, hq2, lineDepth]
    | some q =>
      by_cases hcq : c = q
      · subst hcq
        simp [hq1, hq2, lineDepth]
      · simp [hq1, hq2, hcq, lineDepth]
  · cases str with
    | some q => simp [hq, lineDepth]
    | none =>
      by_cases hp : c = '('
      · subst hp
        have h1 : ¬(('(' : Char) = squote) := by decide
        simp [h1, lineDepth]
      · by_cases hcp : c = ')'
        · subst hcp
          have h2 : ¬((')' : Char) = squote) := by decide
          simp [h2, lineDepth]
        · simp [hq, hp, hcp, lineDepth]

/-- Depth tracking distributes over concatenation of paren streams. -/
theorem lineDepth_append (ps qs : List Char) : ∀ d : Int,
    lineDepth d (ps ++ qs) =
      ((lineDepth (lineDepth d ps).1 qs).1,
        (lineDepth d ps).2 || (lineDepth (lineDepth d ps).1 qs).2) := by
  induction ps with
  | nil => intro d; simp [lineDepth]
  | cons c cs ih =>
    intro d
    by_cases h1 : c = '('
    · simp [lineDepth, h1, ih]
    · by_cases h2 : c = ')'
      · simp [lineDepth, h1, h2, ih, Bool.or_assoc]
      · simp [lineDepth, h1, h2, ih]

/-- The fused single-pass line scan agrees with the two-pass reading: its
return flag is the line's depth-returns-to-zero flag, and when the flag is
down its state is the two passes' states. -/
theorem lineScan_eq (cs : List Char) : ∀ (d : Int) (str prev : Option Char),
    (lineScan ⟨d, str⟩ prev cs).2 = (lineDepth d (lineEmit str prev cs).2).2 ∧
    ((lineDepth d (lineEmit str prev cs).2).2 = false →
      lineScan ⟨d, str⟩ prev cs =
        (⟨(lineDepth d (lineEmit str prev cs).2).1, (lineEmit str prev cs).1⟩, false)) := by
  induction cs with
  | nil => intro d str prev; simp [lineScan, lineEmit, lineDepth]
  | cons c cs ih =>
    intro d str prev
    have hemit : lineEmit str prev (c :: cs) =
        ((lineEmit (strStep str prev c) (some c) cs).1,
          (emitChar str prev c).toList ++ (lineEmit (strStep str prev c) (some c) cs).2) := by
      simp [lineEmit]
    have hscan : lineScan ⟨d, str⟩ prev (c :: cs) =
        if (charStep ⟨d, str⟩ prev c).2 then ((charStep ⟨d, str⟩ prev c).1, true)
        else lineScan (charStep ⟨d, str⟩ prev c).1 (some c) cs := by
      simp [lineScan]
    rw [hemit, hscan, charStep_eq, lineDepth_append]
    by_cases hf : (lineDepth d (emitChar str prev c).toList).2 = true
    · simp [hf]
    · rw [Bool.not_eq_true] at hf
      obtain ⟨ih1, ih2⟩ :=
        ih (lineDepth d (emitChar str prev c).toList).1 (strStep str prev c) (some c)
      rw [hf]
      simp only [Bool.false_or]
      constructor
      · simpa using ih1
      · intro h2
        simpa using ih2 h2

/-- Reindexing a successor-shifted option by an offset. -/
theorem map_map_add (o : Option Nat) (idx : Nat) :
    (o.map (fun i => i + 1)).map (fun i => idx + i) = o.map (fun i => idx + 1 + i) := by
  cases o with
  | none => rfl
  | some i =>
    simp only [Option.map_some']
    congr 1
    omega

/-- The document scan agrees with the first flagged line of the two-pass
reading, offset by the starting index. -/
theorem docScan_eq (ls : List (List Char)) : ∀ (d : Int) (str : Option Char) (idx : Nat),
    docScan ⟨d, str⟩ idx ls =
      (firstTrueIdx (depthFlags d (emitDoc str ls))).map (fun i => idx + i) := by
  induction ls with
  | nil => intro d str idx; simp [docScan, emitDoc, depthFlags, firstTrueIdx]
  | cons l ls ih =>
    intro d str idx
    obtain ⟨hA, hB⟩ := lineScan_eq l d str none
    simp only [docScan, emitDoc, depthFlags, firstTrueIdx]
    rw [hA]
    by_cases hf : (lineDepth d (lineEmit str none l).2).2 = true
    · simp [hf]
    · rw [Bool.not_eq_true] at hf
      rw [hf, hB hf]
      simp only [Bool.false_eq_true, if_false]
      rw [ih, map_map_add]

/-- C2: `findDecoratorEndLine` computes exactly what the specification
describes — scanning forward from the start line while skipping every
character inside a single- or double-quoted string literal (a
backslash-escaped quote does not end the string, so parentheses inside
string literals never change the depth), it returns the first line on which
the tracked parenthesis depth returns to zero after having been opened, and
the start line itself when the document ends without the parentheses
balancing. -/
theorem findDecoratorEndLine_eq_spec (doc : List (List Char)) (startLine : Nat) :
    findDecoratorEndLine doc startLine = findDecoratorEndLineSpec doc startLine := by
  unfold findDecoratorEndLine findDecoratorEndLineSpec
  rw [docScan_eq]
  cases firstTrueIdx (depthFlags 0 (emitDoc none (doc.drop startLine))) with
  | none => rfl
  | some i => simp

end Faex
